import Mathlib

/-!
# Verification of the Pytteliten minifier (`minifier/minifier.py`)

A shallow embedding of the minifier pipeline: tokenizer, grouper, stripper,
scope-aware symbol analyzer, two-stage renamer and emitter.  Python dicts are
modelled as insertion-ordered association lists (`List (κ × ν)`), Python
mutation as explicit state passing, and operations that can raise
(`KeyError`, `IndexError`) return `Option`.
-/

set_option maxRecDepth 4000

/-! ## Ordered-dictionary operations (Python `dict` semantics) -/

/-- First-match lookup, as `d[k]` / `k in d`. -/
def dlookup {κ ν : Type} [DecidableEq κ] (k : κ) : List (κ × ν) → Option ν
  | [] => none
  | (a, b) :: rest => if a = k then some b else dlookup k rest

/-- Python `k in d`. -/
def dmem {κ ν : Type} [DecidableEq κ] (k : κ) (d : List (κ × ν)) : Bool :=
  (dlookup k d).isSome

/-- Python `d[k] = v`: update in place if present, else append at the end
(insertion order preserved, as for a Python dict). -/
def dinsert {κ ν : Type} [DecidableEq κ] (k : κ) (v : ν) : List (κ × ν) → List (κ × ν)
  | [] => [(k, v)]
  | (a, b) :: rest => if a = k then (a, v) :: rest else (a, b) :: dinsert k v rest

/-- Update the value stored under a key that must already be present
(Python `d[k].f(...)` on a missing key raises `KeyError` → `none`). -/
def dadjust {κ ν : Type} [DecidableEq κ] (k : κ) (f : ν → ν) (d : List (κ × ν)) :
    Option (List (κ × ν)) :=
  match dlookup k d with
  | none => none
  | some v => some (dinsert k (f v) d)

/-! ## Keyword tables (module-level constants of the source) -/

/-- `TYPES` from the source. -/
def TYPES : List String :=
  ["int", "void", "uint16_t", "uint32_t", "uint64_t",
   "bool", "auto", "int32_t", "string", "vector", "istringstream"]

/-- `KEYWORDS` from the source (`TYPES + [...]`). -/
def KEYWORDS : List String :=
  TYPES ++ ["return", "printf", "struct", "main", "std", "push_back", "back",
    "pop_back", "reserve", "cout", "__builtin_bswap64", "__builtin_ctzll", "const", "assert",
    "endl", "for", "while", "swap", "if", "else", "char", "abs", "getline",
    "break", "length", "switch", "case", "cin", "empty", "continue", "size",
    "default", "using", "namespace", "__builtin_popcountll", "stoi", "chrono", "second",
    "high_resolution_clock", "duration_cast", "milliseconds", "now", "max", "pair",
    "stable_sort", "greater", "min", "memset", "sizeof"]

/-! ## Tokenizer (`fetch_tokens`) -/

/-- A regex `\w` word character (ASCII fragment: the inputs considered here are
ASCII; the split-preservation property is independent of this classification). -/
def wordChar (c : Char) : Bool := c.isAlphanum || c = '_'

/-- Worker for `fetch_tokens`: `re.split('([^\w])', content)` keeps every
maximal run of word characters as one piece and every non-word character as its
own piece; empty pieces are filtered out.  `acc` is the word run in progress. -/
def fetchAux (acc : List Char) : List Char → List (List Char)
  | [] => if acc.isEmpty then [] else [acc]
  | c :: cs =>
    if wordChar c then fetchAux (acc ++ [c]) cs
    else (if acc.isEmpty then [] else [acc]) ++ [c] :: fetchAux [] cs

/-- `fetch_tokens` from the source. -/
def fetch_tokens (content : String) : List String :=
  (fetchAux [] content.data).map String.mk

/-! ## Token predicates -/

/-- `is_name` from the source: `token and (token[0].isalpha() or token.startswith('_'))`. -/
def is_name (token : String) : Bool :=
  match token.data with
  | [] => false
  | c :: _ => c.isAlpha || c = '_'

/-- `is_keyword` from the source. -/
def is_keyword (token : String) : Bool := KEYWORDS.contains token

/-- `renamable` from the source. -/
def renamable (token : String) : Bool := !is_keyword token && is_name token

/-- `attach_eligible` from the source:
`token and not (is_name(token) or token[0].isnumeric())`. -/
def attach_eligible (token : String) : Bool :=
  match token.data with
  | [] => false
  | c :: _ => !(is_name token || c.isDigit)

/-- `attachable_tokens` from the source. -/
def attachable_tokens (first second : String) : Bool :=
  attach_eligible first || attach_eligible second

/-! ## C1 — tokenizing then concatenating reproduces the input -/

theorem fetchAux_join (cs : List Char) :
    ∀ acc : List Char, (fetchAux acc cs).flatten = acc ++ cs := by
  induction cs with
  | nil =>
    intro acc
    by_cases h : acc.isEmpty
    · simp_all [fetchAux, List.isEmpty_iff]
    · simp_all [fetchAux]
  | cons c cs ih =>
    intro acc
    by_cases hw : wordChar c
    · simpa [fetchAux, hw] using ih (acc ++ [c])
    · by_cases h : acc.isEmpty
      · simp_all [fetchAux, List.isEmpty_iff, ih []]
      · simp_all [fetchAux, ih []]

theorem join_map_mk (l : List (List Char)) :
    String.join (l.map String.mk) = String.mk l.flatten := by
  rw [String.join_eq]
  congr 1
  simp [List.map_map, Function.comp_def]

/-- C1: for every input string `s`, concatenating the token list produced by
`fetch_tokens` in order reproduces `s` exactly — no character lost, duplicated
or reordered. -/
theorem c1_tokenize_then_join (s : String) : String.join (fetch_tokens s) = s := by
  unfold fetch_tokens
  rw [join_map_mk, fetchAux_join s.data []]
  cases s
  rfl

/-! ## Final-stage name generation (`generate_name` and its globals) -/

/-- The mutable globals of the name mangler: the `names` dict and the
`counter` / `resets` counters. -/
structure NamesState where
  names : List (String × String)
  counter : Nat
  resets : Nat
  deriving Repr, DecidableEq

/-- `generate_name` from the source: return the cached name, or mint
`chr(counter) * (resets + 1)` and advance the counter (Z jumps to a,
z wraps to A and bumps `resets`). -/
def generate_name (token : String) (st : NamesState) : String × NamesState :=
  match dlookup token st.names with
  | some n => (n, st)
  | none =>
    let code := String.mk (List.replicate (st.resets + 1) (Char.ofNat st.counter))
    let names1 := dinsert token code st.names
    let c1 := if st.counter = 90 then 96 else st.counter
    let c2 := c1 + 1
    if c2 > 122 then (code, ⟨names1, 65, st.resets + 1⟩)
    else (code, ⟨names1, c2, st.resets⟩)

/-- Run `generate_name` over a list of tokens, collecting the codes. -/
def runGen : List String → NamesState → List String × NamesState
  | [], st => ([], st)
  | t :: ts, st =>
    let p := generate_name t st
    let q := runGen ts p.2
    (p.1 :: q.1, q.2)

/-- ASCII code of the counter position for fresh rank `m` within a 52-block
(`0 ↦ A … 25 ↦ Z, 26 ↦ a … 51 ↦ z`). -/
def letterCode (m : Nat) : Nat := if m < 26 then 65 + m else 71 + m

/-- The code alphabet named by the spec: uppercase then lowercase letters. -/
def specAlphabet : String := "ABCDEFGHIJKLMNOPQRSTUVWXYZabcdefghijklmnopqrstuvwxyz"

/-- The code the spec predicts for the `k`-th freshly generated name
(0-based): the letter at position `k % 52` of `specAlphabet`, repeated
`1 + k / 52` times. -/
def freshCode (k : Nat) : String :=
  String.mk (List.replicate (k / 52 + 1) (specAlphabet.data.getD (k % 52) 'A'))

/-- The counter state reached after `k` fresh generations from `(65, 0)`. -/
def encInv (st : NamesState) (k : Nat) : Prop :=
  st.counter = letterCode (k % 52) ∧ st.resets = k / 52

/-! ### Dictionary lemmas -/

theorem dlookup_dinsert_self {ν : Type} (k : String) (v : ν) (d : List (String × ν)) :
    dlookup k (dinsert k v d) = some v := by
  induction d with
  | nil => simp [dinsert, dlookup]
  | cons p rest ih =>
    by_cases h : p.1 = k
    · simp [dinsert, dlookup, h]
    · simp [dinsert, dlookup, h, ih]

theorem dlookup_dinsert_ne {ν : Type} {a k : String} (h : a ≠ k) (v : ν)
    (d : List (String × ν)) : dlookup a (dinsert k v d) = dlookup a d := by
  have hk : ¬ (k = a) := fun hh => h hh.symm
  induction d with
  | nil => simp [dinsert, dlookup, hk]
  | cons p rest ih =>
    by_cases hp : p.1 = k
    · subst hp
      simp [dinsert, dlookup, hk]
    · simp [dinsert, dlookup, hp, ih]

/-! ### The counter walks the alphabet -/

theorem letter_eq : ∀ m : Nat, m < 52 →
    Char.ofNat (letterCode m) = specAlphabet.data.getD m 'A' := by decide

theorem letterCode_lt (m : Nat) (h : m < 52) : letterCode m ≤ 122 := by
  unfold letterCode; split <;> omega

/-- A fresh token in counter state `k` gets the spec's code for rank `k`, and
the counter advances to state `k + 1`. -/
theorem generate_name_fresh (t : String) (st : NamesState) (k : Nat)
    (hfresh : dlookup t st.names = none) (hinv : encInv st k) :
    generate_name t st =
      (freshCode k,
       ⟨dinsert t (freshCode k) st.names, letterCode ((k + 1) % 52), (k + 1) / 52⟩) := by
  obtain ⟨hc, hr⟩ := hinv
  have hm : k % 52 < 52 := Nat.mod_lt _ (by norm_num)
  have hcode : String.mk (List.replicate (st.resets + 1) (Char.ofNat st.counter))
      = freshCode k := by
    rw [hc, hr, letter_eq _ hm]; rfl
  unfold generate_name
  rw [hfresh]
  simp only [hcode]
  by_cases h51 : k % 52 = 51
  · have hc122 : st.counter = 122 := by rw [hc, h51]; rfl
    have : ¬ st.counter = 90 := by omega
    simp only [this, if_false, hc122]
    have h1 : (k + 1) % 52 = 0 := by omega
    have h2 : (k + 1) / 52 = k / 52 + 1 := by omega
    simp [h1, h2, letterCode, hr]
  · by_cases h25 : k % 52 = 25
    · have hc90 : st.counter = 90 := by rw [hc, h25]; rfl
      have h1 : (k + 1) % 52 = 26 := by omega
      have h2 : (k + 1) / 52 = k / 52 := by omega
      simp [hc90, h1, h2, letterCode, hr]
    · have hne90 : st.counter ≠ 90 := by
        rw [hc]; unfold letterCode; split <;> omega
      have hle : st.counter + 1 ≤ 122 := by
        rw [hc]; unfold letterCode; split <;> omega
      have h1 : (k + 1) % 52 = k % 52 + 1 := by omega
      have h2 : (k + 1) / 52 = k / 52 := by omega
      have h3 : st.counter + 1 = letterCode ((k + 1) % 52) := by
        rw [hc, h1]; unfold letterCode; split <;> split <;> omega
      simp only [hne90, if_false, if_neg (by omega : ¬ st.counter + 1 > 122)]
      rw [h3, hr, h2]

/-- A token already in the table gets its cached name and the state is kept. -/
theorem generate_name_stale (t : String) (st : NamesState) (c : String)
    (h : dlookup t st.names = some c) : generate_name t st = (c, st) := by
  unfold generate_name
  rw [h]

/-- `generate_name` never disturbs an existing table entry. -/
theorem generate_name_keeps (t u c : String) (st : NamesState)
    (h : dlookup t st.names = some c) :
    dlookup t (generate_name u st).2.names = some c := by
  cases hu : dlookup u st.names with
  | some n => rw [generate_name_stale u st n hu]; exact h
  | none =>
    have hne : t ≠ u := fun he => by rw [he, hu] at h; cases h
    unfold generate_name
    rw [hu]
    dsimp only
    split <;> (try split) <;> simp [dlookup_dinsert_ne hne, h]

/-- `runGen` never disturbs an existing table entry. -/
theorem runGen_keeps (toks : List String) (t c : String) (st : NamesState)
    (h : dlookup t st.names = some c) :
    dlookup t (runGen toks st).2.names = some c := by
  induction toks generalizing st with
  | nil => simpa [runGen] using h
  | cons u us ih =>
    simp only [runGen]
    exact ih _ (generate_name_keeps t u c st h)

/-- Fresh tokens fed to `generate_name` in order receive exactly the spec's
rank codes, and the final table remembers each of them. -/
theorem runGen_fresh (toks : List String) :
    ∀ (st : NamesState) (k : Nat), encInv st k → toks.Nodup →
    (∀ t ∈ toks, dlookup t st.names = none) →
    (runGen toks st).1 = (List.range toks.length).map (fun i => freshCode (k + i)) ∧
    ∀ i (hi : i < toks.length),
      dlookup (toks.get ⟨i, hi⟩) (runGen toks st).2.names = some (freshCode (k + i)) := by
  induction toks with
  | nil =>
    intro st k _ _ _
    exact ⟨rfl, fun i hi => absurd hi (by simp)⟩
  | cons t ts ih =>
    intro st k hinv hnd hf
    have hft : dlookup t st.names = none := hf t (by simp)
    have hgen := generate_name_fresh t st k hft hinv
    have hnd1 : ts.Nodup := (List.nodup_cons.mp hnd).2
    have htn : t ∉ ts := (List.nodup_cons.mp hnd).1
    obtain ⟨hcodes, hlook⟩ :=
      ih ⟨dinsert t (freshCode k) st.names, letterCode ((k + 1) % 52), (k + 1) / 52⟩
        (k + 1) ⟨rfl, rfl⟩ hnd1
        (by
          intro u hu
          have hne : u ≠ t := fun he => htn (he ▸ hu)
          simpa [dlookup_dinsert_ne hne] using hf u (by simp [hu]))
    constructor
    · simp only [runGen, hgen, hcodes, List.length_cons, List.range_succ_eq_map,
        List.map_cons, List.map_map, Function.comp_def, Nat.add_zero]
      congr 1
      apply List.map_congr_left
      intro i _
      congr 1
      omega
    · intro i hi
      cases i with
      | zero =>
        simp only [runGen, hgen, List.get, Nat.add_zero]
        exact runGen_keeps ts t _ _ (dlookup_dinsert_self t (freshCode k) st.names)
      | succ j =>
        have hj : j < ts.length := by simpa using hi
        have hres := hlook j hj
        simp only [runGen, hgen, List.get]
        have harith : k + 1 + j = k + (j + 1) := by omega
        rw [harith] at hres
        exact hres

/-- The `names` state of `minify` just before the frequency loop:
`true ↦ 1`, `false ↦ 0`, every keyword mapped to itself, counter at `A`. -/
def namesInit : NamesState :=
  ⟨[("true", "1"), ("false", "0")] ++ KEYWORDS.map (fun kw => (kw, kw)), 65, 0⟩

theorem dlookup_map_self_none (l : List String) (t : String) (h : t ∉ l) :
    dlookup t (l.map fun kw => (kw, kw)) = none := by
  induction l with
  | nil => rfl
  | cons x xs ih =>
    have hx : ¬ (x = t) := fun he => h (by simp [he])
    simp only [List.map_cons, dlookup, hx, if_false]
    exact ih (fun hm => h (by simp [hm]))

theorem namesInit_fresh (t : String) (hkw : is_keyword t = false)
    (ht : t ≠ "true") (hf : t ≠ "false") :
    dlookup t namesInit.names = none := by
  have hmem : t ∉ KEYWORDS := by
    intro hm
    have he := List.elem_eq_true_of_mem hm
    rw [show is_keyword t = KEYWORDS.contains t from rfl, List.contains] at hkw
    simp_all
  have h1 : ¬ (("true" : String) = t) := fun he => ht he.symm
  have h2 : ¬ (("false" : String) = t) := fun he => hf he.symm
  simp only [namesInit, List.cons_append, List.nil_append, dlookup, h1, h2, if_false]
  exact dlookup_map_self_none KEYWORDS t hmem

theorem alphabet_inj : ∀ m : Nat, m < 52 → ∀ mm : Nat, mm < 52 →
    specAlphabet.data.getD m 'A' = specAlphabet.data.getD mm 'A' → m = mm := by decide

theorem freshCode_inj : Function.Injective freshCode := by
  intro a b h
  unfold freshCode at h
  rw [String.ext_iff] at h
  simp only at h
  have hlen : a / 52 = b / 52 := by
    have := congrArg List.length h
    simpa using this
  rw [hlen, List.replicate_succ, List.replicate_succ] at h
  have hchar : specAlphabet.data.getD (a % 52) 'A' = specAlphabet.data.getD (b % 52) 'A' :=
    (List.cons.injEq _ _ _ _ ▸ h).1
  have hmod : a % 52 = b % 52 :=
    alphabet_inj _ (Nat.mod_lt _ (by norm_num)) _ (Nat.mod_lt _ (by norm_num)) hchar
  omega

/-- C2: starting from the run's initial table, the final-stage code table built
by `generate_name` in frequency order assigns the `N` distinct renamable
tokens pairwise-distinct codes; the code of the `i`-th freshly generated rank
(0-based, i.e. 1-based rank `i + 1`) is the letter at position `i % 52` of
`A..Z` then `a..z` repeated `1 + i / 52` times; and re-querying any of the
tokens after the run returns the same code (run-stability). -/
theorem c2_final_code_table (toks : List String) (hnd : toks.Nodup)
    (hren : ∀ t ∈ toks, renamable t = true ∧ t ≠ "true" ∧ t ≠ "false") :
    (runGen toks namesInit).1 = (List.range toks.length).map freshCode ∧
    (runGen toks namesInit).1.Nodup ∧
    ∀ i (hi : i < toks.length),
      (generate_name (toks.get ⟨i, hi⟩) (runGen toks namesInit).2).1 = freshCode i := by
  have hfresh : ∀ t ∈ toks, dlookup t namesInit.names = none := by
    intro t ht
    obtain ⟨hr, h1, h2⟩ := hren t ht
    have hkw : is_keyword t = false := by
      cases hik : is_keyword t
      · rfl
      · rw [renamable, hik] at hr; simp at hr
    exact namesInit_fresh t hkw h1 h2
  have hinv : encInv namesInit 0 := ⟨rfl, rfl⟩
  obtain ⟨hcodes, hlook⟩ := runGen_fresh toks namesInit 0 hinv hnd hfresh
  have hcodes0 : (runGen toks namesInit).1 = (List.range toks.length).map freshCode := by
    simpa using hcodes
  refine ⟨hcodes0, ?_, ?_⟩
  · rw [hcodes0]
    exact List.Nodup.map freshCode_inj (List.nodup_range _)
  · intro i hi
    have hl := hlook i hi
    rw [Nat.zero_add] at hl
    rw [generate_name_stale _ _ _ hl]

theorem c2_final_code_table_witness :
    (runGen ["alpha", "beta"] namesInit).1 = ["A", "B"] ∧
    (generate_name "alpha" (runGen ["alpha", "beta"] namesInit).2).1 = "A" := by
  obtain ⟨hcodes, _, hstable⟩ := c2_final_code_table ["alpha", "beta"] (by decide) (by decide)
  constructor
  · rw [hcodes]; rfl
  · have hs := hstable 0 (by decide)
    simpa using hs

/-! ## Grouper (`group_tokens`, `group`) and stripper (`strip`) -/

/-- Relative index of the first occurrence of the end marker in the suffix
following a matched start marker (the `possible_end_idx` scan). -/
def findEnd (endm : List String) : List String → Option Nat
  | [] => if endm.isPrefixOf ([] : List String) then some 0 else none
  | t :: rest =>
    if endm.isPrefixOf (t :: rest) then some 0
    else match findEnd endm rest with
      | some p => some (p + 1)
      | none => none

/-- Python `str.replace(" ", "")`. -/
def removeSpaces (s : String) : String :=
  String.mk (s.data.filter (fun c => !(c = ' ')))

/-- Worker loop of `group_tokens`, recursing on the suffix at `start_idx`.
`fuel` is the number of remaining loop iterations; every call site passes a
nonempty start marker, so each iteration consumes at least one token, and the
initial fuel `token_list.length` can never run out — when it would, the
remaining suffix passes through unchanged, which is also what the source's
loop does to tokens it never groups. -/
def groupAux (start endm : List String) (include_end include_space : Bool) :
    Nat → List String → List String
  | _, [] => []
  | 0, ts => ts
  | fuel + 1, t :: rest =>
    if start.isPrefixOf (t :: rest) then
      match findEnd endm (List.drop start.length (t :: rest)) with
      | some p =>
        let consumed := max 1 (start.length + p + (if include_end then endm.length else 0))
        let grouped := String.join (List.take consumed (t :: rest))
        let grouped1 :=
          if include_space = false ∧ consumed ≠ 1 then removeSpaces grouped else grouped
        grouped1 :: groupAux start endm include_end include_space fuel
          (List.drop consumed (t :: rest))
      | none => t :: groupAux start endm include_end include_space fuel rest
    else t :: groupAux start endm include_end include_space fuel rest

/-- `group_tokens` from the source. -/
def group_tokens (token_list start endm : List String)
    (include_end : Bool := true) (include_space : Bool := true) : List String :=
  groupAux start endm include_end include_space token_list.length token_list

/-- `group` from the source: strings, block comments, attributes, includes,
deletion regions, line comments, chars — in this exact order. -/
def group (tokens : List String) : List String :=
  let t1 := group_tokens tokens ["\""] ["\""]
  let t2 := group_tokens t1 ["/", "*"] ["*", "/"]
  let t3 := group_tokens t2 ["[", "["] ["]", "]"]
  let t4 := group_tokens t3 ["#", "include"] ["\n"] true false
  let t5 := group_tokens t4 ["#", "ifndef", " ", "MINIFIED"] ["#", "endif"]
  let t6 := group_tokens t5 ["/", "/"] ["\n"] false
  group_tokens t6 ["'"] ["'"]

/-- Python `str.isspace` (ASCII whitespace). -/
def pyIsSpace (s : String) : Bool :=
  !s.data.isEmpty && s.data.all
    (fun c => c = ' ' || c = '\t' || c = '\n' || c = '\r' ||
              c = Char.ofNat 11 || c = Char.ofNat 12)

/-- Python `str.startswith`, over the character lists. -/
def pyStartsWith (s pre : String) : Bool := pre.data.isPrefixOf s.data

/-- `strip` from the source. -/
def strip (tokens : List String) : List String :=
  tokens.filter fun token =>
    !(pyStartsWith token "//" || pyStartsWith token "/*" || pyStartsWith token "[[" ||
      pyStartsWith token "#ifndef" ||
      token = "\n" || pyIsSpace token || token = "const")

/-! ## C9 — grouper behaviour on quoted literals -/

theorem findEnd_quote_none (v : List String) (hv : "\"" ∉ v) :
    findEnd ["\""] v = none := by
  induction v with
  | nil => rfl
  | cons t rest ih =>
    have ht : ¬ (("\"" : String) = t) := fun he => hv (by simp [he.symm])
    have hrest : "\"" ∉ rest := fun hm => hv (by simp [hm])
    simp [findEnd, List.isPrefixOf, ht, ih hrest]

theorem findEnd_quote_first (v w : List String) (hv : "\"" ∉ v) :
    findEnd ["\""] (v ++ "\"" :: w) = some v.length := by
  induction v with
  | nil => simp [findEnd, List.isPrefixOf]
  | cons t rest ih =>
    have ht : ¬ (("\"" : String) = t) := fun he => hv (by simp [he.symm])
    have hrest : "\"" ∉ rest := fun hm => hv (by simp [hm])
    simp [findEnd, List.isPrefixOf, ht, ih hrest]

theorem groupAux_quote_pass (v : List String) (hv : "\"" ∉ v) :
    ∀ fuel : Nat, groupAux ["\""] ["\""] true true fuel v = v := by
  induction v with
  | nil => intro fuel; cases fuel <;> rfl
  | cons t rest ih =>
    intro fuel
    have ht : ¬ (("\"" : String) = t) := fun he => hv (by simp [he.symm])
    have hrest : "\"" ∉ rest := fun hm => hv (by simp [hm])
    cases fuel with
    | zero => rfl
    | succ f => simp [groupAux, List.isPrefixOf, ht, ih hrest f]

theorem groupAux_quote_front (u : List String) (hu : "\"" ∉ u) :
    ∀ (rest : List String) (fuel : Nat),
      groupAux ["\""] ["\""] true true fuel (u ++ rest)
        = u ++ groupAux ["\""] ["\""] true true (fuel - u.length) rest := by
  induction u with
  | nil => intro rest fuel; simp
  | cons t u1 ih =>
    intro rest fuel
    have ht : ¬ (("\"" : String) = t) := fun he => hu (by simp [he.symm])
    have hu1 : "\"" ∉ u1 := fun hm => hu (by simp [hm])
    cases fuel with
    | zero =>
      cases rest with
      | nil => simp [groupAux]
      | cons r rs => simp [groupAux, Nat.zero_sub]
    | succ f =>
      simp only [List.cons_append, List.length_cons, Nat.succ_sub_succ]
      simp [groupAux, List.isPrefixOf, ht, ih hu1 rest f]

/-- A start marker whose first token never occurs in the stream leaves the
stream unchanged. -/
theorem groupAux_no_start (s0 : String) (srest endm : List String) (ie isp : Bool) :
    ∀ (l : List String) (fuel : Nat), s0 ∉ l →
      groupAux (s0 :: srest) endm ie isp fuel l = l := by
  intro l
  induction l with
  | nil => intro fuel _; cases fuel <;> rfl
  | cons t rest ih =>
    intro fuel h
    have ht : ¬ (s0 = t) := fun he => h (by simp [he])
    have hr : s0 ∉ rest := fun hm => h (by simp [hm])
    cases fuel with
    | zero => rfl
    | succ f => simp [groupAux, List.isPrefixOf, ht, ih f hr]

/-- A stream containing none of the grouping marker heads passes through
`group` unchanged. -/
theorem group_no_markers (l : List String)
    (h1 : "\"" ∉ l) (h2 : "/" ∉ l) (h3 : "[" ∉ l) (h4 : "#" ∉ l)
    (h5 : "'" ∉ l) :
    group l = l := by
  have hdef : group l =
      group_tokens (group_tokens (group_tokens (group_tokens (group_tokens
        (group_tokens (group_tokens l ["\""] ["\""]) ["/", "*"] ["*", "/"])
        ["[", "["] ["]", "]"]) ["#", "include"] ["\n"] true false)
        ["#", "ifndef", " ", "MINIFIED"] ["#", "endif"]) ["/", "/"] ["\n"] false)
        ["'"] ["'"] := rfl
  rw [hdef]
  rw [show group_tokens l ["\""] ["\""] = l from
    groupAux_no_start "\"" [] ["\""] true true l l.length h1]
  rw [show group_tokens l ["/", "*"] ["*", "/"] = l from
    groupAux_no_start "/" ["*"] ["*", "/"] true true l l.length h2]
  rw [show group_tokens l ["[", "["] ["]", "]"] = l from
    groupAux_no_start "[" ["["] ["]", "]"] true true l l.length h3]
  rw [show group_tokens l ["#", "include"] ["\n"] true false = l from
    groupAux_no_start "#" ["include"] ["\n"] true false l l.length h4]
  rw [show group_tokens l ["#", "ifndef", " ", "MINIFIED"] ["#", "endif"] = l from
    groupAux_no_start "#" ["ifndef", " ", "MINIFIED"] ["#", "endif"] true true l l.length h4]
  rw [show group_tokens l ["/", "/"] ["\n"] false = l from
    groupAux_no_start "/" ["/"] ["\n"] false true l l.length h2]
  exact groupAux_no_start "'" [] ["'"] true true l l.length h5

theorem take_len_append {α : Type} (v rest : List α) (n : Nat) :
    (v ++ rest).take (v.length + n) = v ++ rest.take n := by
  induction v with
  | nil => simp
  | cons x xs ih => simp [List.take_succ_cons, Nat.succ_add, ih]

theorem drop_len_append {α : Type} (v rest : List α) (n : Nat) :
    (v ++ rest).drop (v.length + n) = rest.drop n := by
  induction v with
  | nil => simp
  | cons x xs ih => simp [Nat.succ_add, ih]

/-- C9: when the grouper matches a start marker (here the opening quote) and
no end marker follows before the input is exhausted, it emits the start marker
alone, unmerged, and the rest of the stream passes through unchanged; when
exactly one terminated quoted literal is present, the span from opening to
closing quote inclusive becomes exactly one merged token. -/
theorem c9_grouper_quotes (u v w : List String)
    (hu : "\"" ∉ u) (hv : "\"" ∉ v) (hw : "\"" ∉ w) :
    group_tokens (u ++ "\"" :: v) ["\""] ["\""] = u ++ "\"" :: v ∧
    group_tokens (u ++ "\"" :: v ++ "\"" :: w) ["\""] ["\""]
      = u ++ String.join ("\"" :: v ++ ["\""]) :: w := by
  constructor
  · show groupAux ["\""] ["\""] true true (u ++ "\"" :: v).length (u ++ "\"" :: v)
      = u ++ "\"" :: v
    rw [groupAux_quote_front u hu]
    congr 1
    have hlen : (u ++ "\"" :: v).length - u.length = v.length + 1 := by simp
    rw [hlen]
    simp [groupAux, List.isPrefixOf, findEnd_quote_none v hv, groupAux_quote_pass v hv]
  · show groupAux ["\""] ["\""] true true ((u ++ "\"" :: v) ++ "\"" :: w).length
      ((u ++ "\"" :: v) ++ "\"" :: w) = u ++ String.join ("\"" :: v ++ ["\""]) :: w
    rw [List.append_assoc, List.cons_append, groupAux_quote_front u hu]
    congr 1
    have hlen : (u ++ "\"" :: (v ++ "\"" :: w)).length - u.length
        = (v.length + w.length + 1) + 1 := by
      simp [List.length_append]
      omega
    rw [hlen, groupAux]
    simp only [List.isPrefixOf, List.length_cons, List.length_nil, beq_self_eq_true,
      Bool.and_self, if_true, List.drop_succ_cons, List.drop_zero,
      findEnd_quote_first v w hv]
    have hcons : max 1 (1 + v.length + 1) = v.length + 2 := by omega
    have htake : ("\"" :: (v ++ "\"" :: w)).take (v.length + 2) = "\"" :: v ++ ["\""] := by
      have h2 : v.length + 2 = (v.length + 1) + 1 := by omega
      rw [h2, List.take_succ_cons]
      rw [show (v ++ "\"" :: w).take (v.length + 1) = v ++ ("\"" :: w).take 1 from
        take_len_append v _ 1]
      simp
    have hdrop : ("\"" :: (v ++ "\"" :: w)).drop (v.length + 2) = w := by
      have h2 : v.length + 2 = (v.length + 1) + 1 := by omega
      rw [h2, List.drop_succ_cons]
      rw [show (v ++ "\"" :: w).drop (v.length + 1) = ("\"" :: w).drop 1 from
        drop_len_append v _ 1]
      simp
    simp only [hcons, htake, hdrop]
    simp [groupAux_quote_pass w hw]

theorem c9_grouper_quotes_witness :
    group_tokens ["a", "\"", "b"] ["\""] ["\""] = ["a", "\"", "b"] ∧
    group_tokens ["a", "\"", "b", "\"", "c"] ["\""] ["\""] = ["a", "\"b\"", "c"] := by
  have h := c9_grouper_quotes ["a"] ["b"] ["c"] (by decide) (by decide) (by decide)
  constructor
  · exact h.1
  · have h2 := h.2
    simp only [List.cons_append, List.nil_append] at h2
    rw [h2]
    decide

/-! ## Symbol analyzer (`get_stats`) -/

/-- The `Function` dataclass of the source (`Function` clashes with a core
namespace, hence `FuncRec`). -/
structure FuncRec where
  args : List (String × Nat)
  -- the source calls this field `variables`, a reserved word here
  vars : List (String × Nat)
  deriving Repr, DecidableEq

def FuncRec.init : FuncRec := ⟨[], []⟩

/-- The `Struct` dataclass of the source. -/
structure Struct where
  name : String
  fields : List (String × Nat)
  functions : List (String × FuncRec)
  top_lvl_used : List String
  deriving Repr, DecidableEq

def Struct.init (name : String) : Struct := ⟨name, [], [], []⟩

/-- `is_type` from the source: `token in TYPES or token in info`.  `info` is
the `structinfo` dict (keys: `None` and the struct names seen so far), and the
token tested is `prev`, which can be Python `None` — and `None in structinfo`
is true, since `structinfo` always holds the `None` (top-level) entry. -/
def is_type (info : List (Option String × Struct)) (token : Option String) : Bool :=
  (match token with
   | some t => TYPES.contains t
   | none => false) || dmem token info

/-- `preceded_by_type` from the source. -/
def preceded_by_type (info : List (Option String × Struct))
    (prev prev_prev : Option String) : Bool :=
  is_type info prev ||
    ((prev = some ">" || prev = some "&") && is_type info prev_prev)

/-- `scope_change` from the source. -/
def scope_change (token opener closer : String) : Int :=
  (if token = opener then (1 : Int) else 0) - (if token = closer then (1 : Int) else 0)

/-- The loop-carried locals of `get_stats`. -/
structure StatState where
  entering : Bool
  struct : Option String
  function : Option String
  struct_scope : Int
  function_scope : Int
  parenth_depth : Int
  structinfo : List (Option String × Struct)
  prev : Option String
  prev_prev : Option String
  deriving Repr, DecidableEq

def statInit : StatState :=
  ⟨false, none, none, 0, 0, 0, [(none, Struct.init "Top Level")], none, none⟩

/-- Replace the record of struct `key` (Python `structinfo[key] = ...` after a
successful lookup; `none` = `KeyError`). -/
def updStruct (si : List (Option String × Struct)) (key : Option String)
    (f : Struct → Struct) : Option (List (Option String × Struct)) :=
  match dlookup key si with
  | none => none
  | some s => some (dinsert key (f s) si)

/-- One iteration of the `get_stats` token loop.  `next?` is `tokens[i+1]`
when it exists.  The blocks appear in the source's order; `none` models an
uncaught `KeyError`/`IndexError`. -/
def stepStat (st : StatState) (token : String) (next? : Option String) :
    Option StatState := do
  -- Handle exiting function
  let fs0 := if !st.entering && st.function.isSome
             then st.function_scope + scope_change token "\x7b" "\x7d"
             else st.function_scope
  let function0 := if !st.entering && st.function.isSome && decide (fs0 = 0)
                   then none else st.function
  -- Record args
  let pd1 := if st.entering then
               (if token = "(" then st.parenth_depth + 1
                else if token = ")" then st.parenth_depth - 1
                else st.parenth_depth)
             else st.parenth_depth
  let structinfo1 ←
    if st.entering && !(token = "(") && !(token = ")") && decide (st.parenth_depth > 0) then
      match next? with
      | none => none      -- `tokens[i + 1]` raises IndexError at the last token
      | some nx =>
        if (nx = "," || nx = ")") && !TYPES.contains token then
          match dlookup st.struct st.structinfo with
          | none => none
          | some srec =>
            match function0 with
            | none => none
            | some f =>
              match dlookup f srec.functions with
              | none => none
              | some frec =>
                let frec1 := { frec with args := dinsert token 1 frec.args }
                let srec1 := { srec with functions := dinsert f frec1 srec.functions }
                some (dinsert st.struct srec1 st.structinfo)
        else some st.structinfo
    else some st.structinfo
  let entering1 := if st.entering && decide (pd1 = 0) then false else st.entering
  -- Found a function
  let found := is_name token && preceded_by_type structinfo1 st.prev st.prev_prev
                 && decide (next? = some "(")
  let structinfo2 ←
    if found then
      updStruct structinfo1 st.struct
        (fun s => { s with functions := dinsert token FuncRec.init s.functions })
    else some structinfo1
  let entering2 := if found then true else entering1
  let function2 := if found then some token else function0
  -- Argument / local-variable counting and local declarations
  let structinfo3 ←
    match function2 with
    | none => some structinfo2
    | some f =>
      match dlookup st.struct structinfo2 with
      | none => none
      | some srec =>
        match dlookup f srec.functions with
        | none => none
        | some frec =>
          let frec1 := match dlookup token frec.args with
            | some c => { frec with args := dinsert token (c + 1) frec.args }
            | none => frec
          let frec2 := match dlookup token frec1.vars with
            | some c => { frec1 with vars := dinsert token (c + 1) frec1.vars }
            | none => frec1
          let frec3 := if !entering2 && is_name token
                          && preceded_by_type structinfo2 st.prev st.prev_prev
                       then { frec2 with vars := dinsert token 1 frec2.vars }
                       else frec2
          some (dinsert st.struct
            { srec with functions := dinsert f frec3 srec.functions } structinfo2)
  -- Exiting struct?
  let ss5 := if st.struct.isSome
             then st.struct_scope + scope_change token "\x7b" "\x7d"
             else st.struct_scope
  let struct5 := if st.struct.isSome && decide (ss5 = 0) then none else st.struct
  -- Now in a struct
  let inStruct := decide (st.prev = some "struct")
  let struct6 := if inStruct then some token else struct5
  let structinfo6 := if inStruct
                     then dinsert (some token) (Struct.init token) structinfo3
                     else structinfo3
  -- Found a struct field
  let structinfo7 ←
    if decide (ss5 = 1) && is_name token && function2.isNone
        && preceded_by_type structinfo6 st.prev st.prev_prev then
      updStruct structinfo6 struct6 (fun s => { s with fields := dinsert token 1 s.fields })
    else some structinfo6
  -- Count a field occurrence
  let structinfo8 ←
    match dlookup struct6 structinfo7 with
    | none => none
    | some srec =>
      match dlookup token srec.fields with
      | some c => some (dinsert struct6
          { srec with fields := dinsert token (c + 1) srec.fields } structinfo7)
      | none => some structinfo7
  -- Record which top-level functions each struct uses
  let structinfo9 ←
    match dlookup none structinfo8 with
    | none => none
    | some srecN =>
      if dmem token srecN.functions then
        match dlookup struct6 structinfo8 with
        | none => none
        | some srec6 =>
          if !(srec6.top_lvl_used.contains token) && struct6.isSome then
            some (dinsert struct6
              { srec6 with top_lvl_used := srec6.top_lvl_used ++ [token] } structinfo8)
          else some structinfo8
      else some structinfo8
  some { entering := entering2, struct := struct6, function := function2,
         struct_scope := ss5, function_scope := fs0, parenth_depth := pd1,
         structinfo := structinfo9, prev := some token, prev_prev := st.prev }

/-- The `get_stats` token loop; `rest.head?` supplies `tokens[i + 1]`. -/
def statLoop : StatState → List String → Option StatState
  | st, [] => some st
  | st, t :: rest => do
      let st1 ← stepStat st t rest.head?
      statLoop st1 rest

/-- `get_stats` from the source. -/
def get_stats (tokens : List String) : Option (List (Option String × Struct)) :=
  (statLoop statInit tokens).map (fun st => st.structinfo)

/-! ## IR renaming (`sort_dict`, `get_ir_renames`, `to_ir`) -/

/-- Stable insertion into a descending-by-value list: the new element goes
after all elements with a value `≥` its own. -/
def insDesc (x : String × Nat) : List (String × Nat) → List (String × Nat)
  | [] => [x]
  | y :: ys => if y.2 ≥ x.2 then y :: insDesc x ys else x :: y :: ys

/-- `sort_dict` from the source: stable sort, descending by value (Python's
`sorted(d.items(), key=lambda item: -item[1])` — any stable descending sort
produces the same list). -/
def sort_dict (d : List (String × Nat)) : List (String × Nat) :=
  d.foldl (fun acc x => insDesc x acc) []

/-- IR per-function rename tables (the source reuses the `Function` class with
string values). -/
structure IRFunc where
  args : List (String × String)
  -- the source calls this field `variables`, a reserved word here
  vars : List (String × String)
  deriving Repr, DecidableEq

/-- IR per-struct rename tables (the source reuses the `Struct` class with
string values). -/
structure IRStruct where
  name : String
  fields : List (String × String)
  functions : List (String × IRFunc)
  deriving Repr, DecidableEq

/-- The per-struct field loop of `get_ir_renames`: returns this struct's IR
field table, the updated shared pool and the next fresh index. -/
def fieldLoop : List String → List (String × String) → Nat →
    (List (String × String) × List (String × String) × Nat)
  | [], fields, j => ([], fields, j)
  | field :: rest, fields, j =>
    match dlookup field fields with
    | some fn =>
      let r := fieldLoop rest fields j
      ((field, fn) :: r.1, r.2)
    | none =>
      let fname := "field" ++ toString j
      let r := fieldLoop rest (dinsert field fname fields) (j + 1)
      ((field, fname) :: r.1, r.2)

def argLoop (tag : String) : List String → Nat → List (String × String)
  | [], _ => []
  | arg :: rest, y => (arg, tag ++ toString y) :: argLoop tag rest (y + 1)

/-- The per-struct function loop of `get_ir_renames` (`x` enumerates all
functions; only struct-owned functions touch `methods`). -/
def funcLoop (structKey : Option String) :
    List (String × FuncRec) → Nat → List (String × String) →
    (List (String × IRFunc) × List (String × String))
  | [], _, methods => ([], methods)
  | (func, frec) :: rest, x, methods =>
    let methods1 := if structKey.isSome
                    then dinsert func ("func" ++ toString x) methods
                    else methods
    let irfn : IRFunc :=
      ⟨argLoop "arg" ((sort_dict frec.args).map Prod.fst) 0,
       argLoop "var" ((sort_dict frec.vars).map Prod.fst) 0⟩
    let r := funcLoop structKey rest (x + 1) methods1
    ((func, irfn) :: r.1, r.2)

/-- The outer struct loop of `get_ir_renames`.  `used` models the
`top_lvl_used` set (membership only). -/
def structLoop : List (Option String × Struct) → Nat →
    List (Option String × IRStruct) → List (String × String) →
    List (String × String) → List String →
    (List (Option String × IRStruct) × List (String × String) ×
     List (String × String) × List String)
  | [], _, irAcc, fields, methods, used => (irAcc, fields, methods, used)
  | (skey, srec) :: rest, i, irAcc, fields, methods, used =>
    let fl := fieldLoop ((sort_dict srec.fields).map Prod.fst) fields 0
    let fn := funcLoop skey srec.functions 0 methods
    let used1 := srec.top_lvl_used.foldl
      (fun u f => if u.contains f then u else u ++ [f]) used
    let entry : IRStruct := ⟨"struct" ++ toString i, fl.1, fn.1⟩
    structLoop rest (i + 1) (dinsert skey entry irAcc) fl.2.1 fn.2 used1

/-- The final top-level-function loop of `get_ir_renames`: `topfunc{i}` for
functions in the `used` set, skip functions already in `methods`, `main`
keeps its name, the rest get `func{j}` (`j` counts `main` too). -/
def assignTop : List String → List String → List (String × String) → Nat → Nat →
    List (String × String)
  | [], _, methods, _, _ => methods
  | func :: rest, used, methods, i, j =>
    if used.contains func then
      assignTop rest used (dinsert func ("topfunc" ++ toString i) methods) (i + 1) j
    else if dmem func methods then
      assignTop rest used methods i j
    else
      assignTop rest used
        (dinsert func (if func = "main" then "main" else "func" ++ toString j) methods)
        i (j + 1)

/-- `get_ir_renames` from the source. -/
def get_ir_renames (structinfo : List (Option String × Struct)) :
    Option (List (Option String × IRStruct) × List (String × String) ×
            List (String × String)) :=
  let r := structLoop structinfo 0 [] [] [] []
  match dlookup none structinfo with
  | none => none
  | some srecN =>
    some (r.1, r.2.1, assignTop (srecN.functions.map Prod.fst) r.2.2.2 r.2.2.1 0 0)

/-- The rename decision of `to_ir` (source lines 387–395), in its exact
`if`/`elif` order: active-function argument table, then the global field
table, then the global function table, then the active function's local
table, else unchanged.  `none` models `KeyError` on `ir[struct]`. -/
def irRename (ir : List (Option String × IRStruct))
    (fields methods : List (String × String))
    (struct : Option String) (function : Option String) (token : String) :
    Option String :=
  match function with
  | some f =>
    (match dlookup struct ir with
     | none => none
     | some irs =>
       match dlookup f irs.functions with
       | none => none
       | some irf =>
         match dlookup token irf.args with
         | some a => some a
         | none =>
           match dlookup token fields with
           | some x => some x
           | none =>
             match dlookup token methods with
             | some x => some x
             | none =>
               match dlookup token irf.vars with
               | some x => some x
               | none => some token)
  | none =>
    match dlookup token fields with
    | some x => some x
    | none =>
      match dlookup token methods with
      | some x => some x
      | none => some token

/-- The loop-carried locals of `to_ir`. -/
structure IRState where
  entering : Bool
  struct : Option String
  function : Option String
  struct_scope : Int
  function_scope : Int
  parenth_depth : Int
  prev : Option String
  deriving Repr, DecidableEq

def irInit : IRState := ⟨false, none, none, 0, 0, 0, none⟩

/-- One iteration of the `to_ir` loop, in the source's block order. -/
def stepIR (ir : List (Option String × IRStruct))
    (fields methods : List (String × String)) (st : IRState) (token : String) :
    Option (IRState × String) := do
  let fs0 := if !st.entering && st.function.isSome
             then st.function_scope + scope_change token "\x7b" "\x7d"
             else st.function_scope
  let function0 := if !st.entering && st.function.isSome && decide (fs0 = 0)
                   then none else st.function
  let pd1 := if st.entering then st.parenth_depth + scope_change token "(" ")"
             else st.parenth_depth
  let entering1 := if st.entering && decide (pd1 = 0) then false else st.entering
  let inMeth := dmem token methods && function0.isNone
  let function2 := if inMeth then some token else function0
  let entering2 := if inMeth then true else entering1
  let ss5 := if st.struct.isSome then st.struct_scope + scope_change token "\x7b" "\x7d"
             else st.struct_scope
  let struct5 := if st.struct.isSome && decide (ss5 = 0) then none else st.struct
  let struct6 := if st.prev = some "struct" then some token else struct5
  let renamed ← irRename ir fields methods struct6 function2 token
  some ({ entering := entering2, struct := struct6, function := function2,
          struct_scope := ss5, function_scope := fs0, parenth_depth := pd1,
          prev := some renamed }, renamed)

def irLoop (ir : List (Option String × IRStruct))
    (fields methods : List (String × String)) :
    IRState → List String → Option (List String)
  | _, [] => some []
  | st, t :: rest => do
    let p ← stepIR ir fields methods st t
    let rs ← irLoop ir fields methods p.1 rest
    some (p.2 :: rs)

/-- `to_ir` from the source. -/
def to_ir (tokens : List String) (ir : List (Option String × IRStruct))
    (fields methods : List (String × String)) : Option (List String) :=
  irLoop ir fields methods irInit tokens

/-! ## Final stage (`get_frequencies`, the naming loop and emission) -/

/-- The counting loop of `get_frequencies` (first-occurrence insertion
order, renamable tokens only). -/
def freqAux (toks : List String) : List (String × Nat) :=
  toks.foldl
    (fun d token =>
      if renamable token then
        match dlookup token d with
        | some c => dinsert token (c + 1) d
        | none => dinsert token 1 d
      else d)
    []

/-- `get_frequencies` from the source. -/
def get_frequencies (tokens : List String) : List (String × Nat) :=
  sort_dict (freqAux tokens)

/-- The `minify` frequency loop: `names[token] = generate_name(token)` — the
outer re-assignment stores the value `generate_name` has just cached, so the
table is exactly the one `generate_name` leaves behind. -/
def nameLoop : List String → NamesState → NamesState
  | [], st => st
  | t :: ts, st => nameLoop ts (generate_name t st).2

/-- The full `names` table of `minify`: `true/false`, keywords, then the
frequency-ordered generation loop. -/
def buildNames (tokens : List String) : NamesState :=
  nameLoop ((get_frequencies tokens).map Prod.fst) namesInit

/-- The per-token rename of the final emission loop
(`if renamable(token): token = names[token]`; `none` = `KeyError`). -/
def renameTok (names : List (String × String)) (token : String) : Option String :=
  if renamable token then dlookup token names else some token

/-- The final emission loop of `minify`: separator, rename, emit. -/
def emitAux (names : List (String × String)) :
    Option String → List String → Option (List String)
  | _, [] => some []
  | prev, token :: rest => do
    let sep : List String :=
      match prev with
      | some p => if !(p = "") && !(attachable_tokens p token) then [" "] else []
      | none => []
    let t1 ← renameTok names token
    let out ← emitAux names (some t1) rest
    some (sep ++ t1 :: out)

/-- The final stage of `minify` on the IR token stream. -/
def minifyEmit (tokens : List String) : Option (List String) :=
  emitAux (buildNames tokens).names none tokens

/-- The whole core pipeline of `minify` (file IO and the external formatter
excluded), from raw source text to the final token stream. -/
def minifyTokens (content : String) : Option (List String) := do
  let toks := strip (group (fetch_tokens content))
  let si ← get_stats toks
  let r ← get_ir_renames si
  let irtoks ← to_ir toks r.1 r.2.1 r.2.2
  minifyEmit irtoks

/-- A token is merge-sensitive in the spec's sense: name-like, or with a
leading numeric character. -/
def mergeSensitive (t : String) : Bool :=
  is_name t ||
    (match t.data with
     | [] => false
     | c :: _ => c.isDigit)

/-! ## C3 — separator insertion in the emitter -/

theorem attach_eligible_not_ms (t : String) (h : t ≠ "") :
    attach_eligible t = !mergeSensitive t := by
  unfold attach_eligible mergeSensitive
  cases ht : t.data with
  | nil =>
    exfalso
    exact h (String.ext (by simp [ht]))
  | cons c cs => simp

theorem renamable_is_name (t : String) (h : renamable t = true) : is_name t = true := by
  unfold renamable at h
  exact (Bool.and_eq_true_iff.mp h).2

theorem is_name_not_empty (t : String) (h : is_name t = true) : t ≠ "" := by
  intro he
  rw [he] at h
  simp [is_name] at h

theorem dlookup_val_mem {ν : Type} (k : String) (d : List (String × ν)) (v : ν)
    (h : dlookup k d = some v) : ∃ p ∈ d, p.2 = v := by
  induction d with
  | nil => simp [dlookup] at h
  | cons p rest ih =>
    by_cases hp : p.1 = k
    · rw [dlookup, if_pos hp] at h
      exact ⟨p, by simp, Option.some_inj.mp h⟩
    · rw [dlookup, if_neg hp] at h
      obtain ⟨q, hq, hv⟩ := ih h
      exact ⟨q, by simp [hq], hv⟩

/-- C3: in the final emission loop, a separating space is inserted before the
next output token exactly when the previous output token and the next output
token are both merge-sensitive (name-like, or with a leading numeric
character); a pair with a plain symbol on either side is emitted with no
separator.  The hypothesis on `names` holds for the real table: every value is
a generated letter code, a keyword, or `1`/`0`. -/
theorem c3_separator_iff_merge_sensitive (names : List (String × String))
    (prev token : String) (ts : List String)
    (hprev : prev ≠ "") (htok : token ≠ "")
    (hv : ∀ p ∈ names, mergeSensitive p.2 = true) :
    emitAux names (some prev) (token :: ts) =
      (do
        let t1 ← renameTok names token
        let out ← emitAux names (some t1) ts
        some ((if mergeSensitive prev && mergeSensitive t1 then [" "] else []) ++
          t1 :: out)) := by
  rw [emitAux]
  cases hr : renamable token with
  | false =>
    have ht1 : renameTok names token = some token := by simp [renameTok, hr]
    rw [ht1]
    have hsep : (!(prev = "") && !(attachable_tokens prev token))
        = (mergeSensitive prev && mergeSensitive token) := by
      rw [attachable_tokens, attach_eligible_not_ms prev hprev,
        attach_eligible_not_ms token htok]
      have hp : decide (prev = "") = false := by simp [hprev]
      rw [hp]
      cases mergeSensitive prev <;> cases mergeSensitive token <;> rfl
    simp only [hsep]
    simp
  | true =>
    have ht1 : renameTok names token = dlookup token names := by simp [renameTok, hr]
    rw [ht1]
    cases hl : dlookup token names with
    | none => simp
    | some v =>
      have hmsv : mergeSensitive v = true := by
        obtain ⟨p, hp, hpv⟩ := dlookup_val_mem token names v hl
        rw [← hpv]
        exact hv p hp
      have hmst : mergeSensitive token = true := by
        unfold mergeSensitive
        rw [renamable_is_name token hr]
        rfl
      have hsep : (!(prev = "") && !(attachable_tokens prev token))
          = (mergeSensitive prev && mergeSensitive v) := by
        rw [attachable_tokens, attach_eligible_not_ms prev hprev,
          attach_eligible_not_ms token htok, hmst, hmsv]
        have hp : decide (prev = "") = false := by simp [hprev]
        rw [hp]
        cases mergeSensitive prev <;> rfl
      simp only [hsep]
      simp

theorem c3_separator_witness :
    emitAux [("foo", "A")] (some "x") ["foo", ")"] = some [" ", "A", ")"] := by
  have h1 := c3_separator_iff_merge_sensitive [("foo", "A")] "x" "foo" [")"]
    (by decide) (by decide) (by decide)
  rw [h1]
  decide

/-! ## C4 — analyzer counts on the worked example -/

/-- The stripped token stream of
`struct S { int x; int f(int y) { int z = y + x; return z; } };`. -/
def c4toks : List String :=
  ["struct", "S", "\x7b", "int", "x", ";", "int", "f", "(", "int", "y", ")", "\x7b",
   "int", "z", "=", "y", "+", "x", ";", "return", "z", ";", "\x7d", "\x7d", ";"]

/-- C4 counterexample: the claim says field `x` of struct `S` gets count 2,
but `get_stats` records 3 — the declaration is double-counted, because the
field-registration block stores count 1 and the occurrence-increment block
fires in the same iteration. -/
theorem c4_field_count_counterexample :
    ((get_stats c4toks).bind fun si => (dlookup (some "S") si).bind
      fun s => dlookup "x" s.fields) = some 3 ∧
    (some 3 : Option Nat) ≠ some 2 := by
  constructor
  · rfl
  · decide

/-- C4 amended: on the worked example the analyzer reports struct `S` with
field `x` at count 3 and function `f` with argument `y` at count 3 (field and
argument declarations are double-counted: registered with count 1 and
incremented in the same loop iteration) and local `z` at count 2; none of
`x`, `y`, `z` appear in the tables of any other struct (the only other record
is the top-level one, and its tables are empty). -/
theorem c4_analyzer_counts :
    ((get_stats c4toks).bind fun si => (dlookup (some "S") si).bind
      fun s => dlookup "x" s.fields) = some 3 ∧
    ((get_stats c4toks).bind fun si => (dlookup (some "S") si).bind
      fun s => (dlookup "f" s.functions).bind fun fr => dlookup "y" fr.args) = some 3 ∧
    ((get_stats c4toks).bind fun si => (dlookup (some "S") si).bind
      fun s => (dlookup "f" s.functions).bind fun fr => dlookup "z" fr.vars) = some 2 ∧
    ((get_stats c4toks).bind fun si => (dlookup none si).map
      fun s => s.fields) = some [] ∧
    ((get_stats c4toks).bind fun si => (dlookup none si).map
      fun s => s.functions) = some [] := by
  refine ⟨rfl, rfl, rfl, rfl, rfl⟩

/-! ## C5 — lookup order of the IR substitution -/

/-- IR tables in which token `x` is both a local of the active function `f`
(`var0`) and a global field (`field0`). -/
def c5ir : List (Option String × IRStruct) :=
  [(none, ⟨"struct0", [], []⟩),
   (some "A", ⟨"struct1", [], [("f", ⟨[], [("x", "var0")]⟩)]⟩)]

/-- C5 counterexample: the claim says a name present in both the active
function's local table and the global field table receives its local rename
(`var0`); `to_ir` gives it the field rename (`field0`), because the local
table is consulted last, after the field and function tables. -/
theorem c5_lookup_order_counterexample :
    to_ir ["struct", "A", "\x7b", "f", "(", ")", "\x7b", "x", "\x7d", "\x7d"]
        c5ir [("x", "field0")] [("f", "func0")]
      = some ["struct", "A", "\x7b", "func0", "(", ")", "\x7b", "field0", "\x7d", "\x7d"] ∧
    ("field0" : String) ≠ "var0" := by
  constructor
  · rfl
  · decide

/-- C5 amended: inside an active function, `to_ir` substitutes each token by
the lookup order: scoped argument table → global field table → global
function table → scoped local-variable table → unchanged.  In particular a
name present in both the active function's local table and the global field
table receives its field rename, not its local rename. -/
theorem c5_lookup_order (ir : List (Option String × IRStruct))
    (fields methods : List (String × String)) (stru : Option String)
    (f token : String) (irs : IRStruct) (irf : IRFunc)
    (hs : dlookup stru ir = some irs) (hf : dlookup f irs.functions = some irf) :
    irRename ir fields methods stru (some f) token =
      some (match dlookup token irf.args with
        | some a => a
        | none => match dlookup token fields with
          | some x => x
          | none => match dlookup token methods with
            | some x => x
            | none => match dlookup token irf.vars with
              | some x => x
              | none => token) ∧
    (∀ fv lv, dlookup token irf.args = none → dlookup token fields = some fv →
      dlookup token irf.vars = some lv →
      irRename ir fields methods stru (some f) token = some fv) := by
  have hbase : irRename ir fields methods stru (some f) token =
      (match dlookup token irf.args with
        | some a => some a
        | none => match dlookup token fields with
          | some x => some x
          | none => match dlookup token methods with
            | some x => some x
            | none => match dlookup token irf.vars with
              | some x => some x
              | none => some token) := by
    simp only [irRename, hs, hf]
  constructor
  · rw [hbase]
    cases dlookup token irf.args
    · cases dlookup token fields
      · cases dlookup token methods
        · cases dlookup token irf.vars <;> rfl
        · rfl
      · rfl
    · rfl
  · intro fv lv h1 h2 _
    rw [hbase, h1, h2]

theorem c5_lookup_order_witness :
    irRename c5ir [("x", "field0")] [("f", "func0")] (some "A") (some "f") "x"
      = some "field0" := by
  have h := c5_lookup_order c5ir [("x", "field0")] [("f", "func0")] (some "A")
    "f" "x" ⟨"struct1", [], [("f", ⟨[], [("x", "var0")]⟩)]⟩ ⟨[], [("x", "var0")]⟩
    (by rfl) (by rfl)
  exact h.2 "field0" "var0" (by rfl) (by rfl) (by rfl)

/-! ## C6 — naming of top-level functions -/

/-- Stripped tokens of `int g(){} struct A{int f(){g();}};` — `g` is a
top-level function referenced from exactly one struct. -/
def c6toks : List String :=
  ["int", "g", "(", ")", "\x7b", "\x7d", "struct", "A", "\x7b", "int", "f", "(", ")",
   "\x7b", "g", "(", ")", ";", "\x7d", "\x7d", ";"]

/-- C6 counterexample: the claim says `topfunc{i}` is assigned iff the
function is referenced from more than one struct; here `g` is referenced
from exactly one struct and still receives `topfunc0` (the `used` set is
membership-only — one referencing struct suffices). -/
theorem c6_topfunc_counterexample :
    ((get_stats c6toks).bind fun si => (get_ir_renames si).map
      fun r => dlookup "g" r.2.2) = some (some "topfunc0") ∧
    ((get_stats c6toks).map fun si =>
      (si.filter fun p => p.1.isSome && p.2.top_lvl_used.contains "g").length)
      = some 1 := by
  exact ⟨rfl, rfl⟩

theorem dmem_dinsert_ne {ν : Type} {a k : String} (h : a ≠ k) (v : ν)
    (d : List (String × ν)) : dmem a (dinsert k v d) = dmem a d := by
  simp [dmem, dlookup_dinsert_ne h]

theorem assignTop_not_mem (f : String) (used : List String) :
    ∀ (fns : List String) (m : List (String × String)) (i j : Nat), f ∉ fns →
      dlookup f (assignTop fns used m i j) = dlookup f m := by
  intro fns
  induction fns with
  | nil => intro m i j _; rfl
  | cons g rest ih =>
    intro m i j h
    have hg : f ≠ g := fun he => h (by simp [he])
    have hr : f ∉ rest := fun hm => h (by simp [hm])
    by_cases h1 : used.contains g
    · simp only [assignTop, h1, if_true]
      rw [ih _ _ _ hr, dlookup_dinsert_ne hg]
    · by_cases h2 : dmem g m
      · simp only [assignTop, h1, h2, Bool.false_eq_true, if_false, if_true]
        exact ih _ _ _ hr
      · simp only [assignTop, h1, h2, Bool.false_eq_true, if_false]
        rw [ih _ _ _ hr, dlookup_dinsert_ne hg]

/-- Number of functions among `pre` that are in the cross-reference set
(drives the `topfunc{i}` numbering). -/
def topIdx (used : List String) (pre : List String) : Nat :=
  (pre.filter (fun g => used.contains g)).length

/-- Number of functions among `pre` that fall through to the `func{j}`/`main`
branch (drives the `func{j}` numbering; note `main` is counted too). -/
def funcIdx (used : List String) (m0 : List (String × String)) (pre : List String) : Nat :=
  (pre.filter (fun g => !used.contains g && !dmem g m0)).length

theorem funcIdx_dinsert (used : List String) (m0 : List (String × String))
    (g v : String) (pre : List String) (h : g ∉ pre) :
    funcIdx used (dinsert g v m0) pre = funcIdx used m0 pre := by
  unfold funcIdx
  congr 1
  apply List.filter_congr
  intro x hx
  have hxg : x ≠ g := fun he => h (he ▸ hx)
  simp [dmem_dinsert_ne hxg]

/-- C6 amended: in the final loop of `get_ir_renames`, the `k`-th top-level
function `f` receives `topfunc{i}` iff it is referenced from within at least
one struct (not "more than one"), with `i` counting cross-referenced
functions in discovery order (not first-cross-reference order); otherwise, if
`f` shares its name with a struct method it keeps that method's code;
otherwise `main` keeps its name and every other function gets `func{j}`,
where `j` counts all fall-through functions so far (`main` included). -/
theorem c6_topfunc_rule (fns used : List String) (m0 : List (String × String))
    (i j : Nat) (hnd : fns.Nodup) (k : Nat) (hk : k < fns.length) :
    dlookup (fns.get ⟨k, hk⟩) (assignTop fns used m0 i j) =
      (if used.contains (fns.get ⟨k, hk⟩) then
        some ("topfunc" ++ toString (i + topIdx used (fns.take k)))
      else if dmem (fns.get ⟨k, hk⟩) m0 then dlookup (fns.get ⟨k, hk⟩) m0
      else some (if fns.get ⟨k, hk⟩ = "main" then "main"
        else "func" ++ toString (j + funcIdx used m0 (fns.take k)))) := by
  induction fns generalizing m0 i j k with
  | nil => exact absurd hk (by simp)
  | cons g rest ih =>
    have hgr : g ∉ rest := (List.nodup_cons.mp hnd).1
    have hndr : rest.Nodup := (List.nodup_cons.mp hnd).2
    cases k with
    | zero =>
      simp only [List.get, List.take_zero]
      have ht0 : topIdx used [] = 0 := rfl
      have hf0 : funcIdx used m0 [] = 0 := rfl
      rw [ht0, hf0, Nat.add_zero, Nat.add_zero]
      by_cases h1 : used.contains g
      · simp only [assignTop, h1, if_true]
        rw [assignTop_not_mem g used rest _ _ _ hgr, dlookup_dinsert_self]
      · by_cases h2 : dmem g m0
        · simp only [assignTop, h1, h2, Bool.false_eq_true, if_false, if_true]
          exact assignTop_not_mem g used rest m0 _ _ hgr
        · simp only [assignTop, h1, h2, Bool.false_eq_true, if_false]
          rw [assignTop_not_mem g used rest _ _ _ hgr, dlookup_dinsert_self]
    | succ k1 =>
      have hk1 : k1 < rest.length := by simpa using hk
      have hget : (g :: rest).get ⟨k1 + 1, hk⟩ = rest.get ⟨k1, hk1⟩ := rfl
      rw [hget]
      have hfmem : rest.get ⟨k1, hk1⟩ ∈ rest := List.get_mem rest k1 hk1
      have hfg : rest.get ⟨k1, hk1⟩ ≠ g := fun he => hgr (he ▸ hfmem)
      have htk : g ∉ rest.take k1 := fun hm => hgr (List.take_subset k1 rest hm)
      rw [List.take_succ_cons]
      by_cases h1 : used.contains g
      · have h1m : g ∈ used := by simpa using h1
        simp only [assignTop, h1, if_true]
        rw [ih _ (i + 1) j hndr k1 hk1]
        have e1 : topIdx used (g :: rest.take k1) = topIdx used (rest.take k1) + 1 := by
          simp [topIdx, List.filter_cons, h1m]
        have e2 : funcIdx used m0 (g :: rest.take k1) = funcIdx used m0 (rest.take k1) := by
          simp [funcIdx, List.filter_cons, h1m]
        have e3 := funcIdx_dinsert used m0 g ("topfunc" ++ toString i) (rest.take k1) htk
        have e4 := dmem_dinsert_ne hfg ("topfunc" ++ toString i) m0
        have e5 := dlookup_dinsert_ne hfg ("topfunc" ++ toString i) m0
        have e6 : i + 1 + topIdx used (rest.take k1)
            = i + (topIdx used (rest.take k1) + 1) := by omega
        rw [e1, e2, e3, e4, e5, e6]
      · by_cases h2 : dmem g m0
        · have h1m : g ∉ used := by simpa using h1
          simp only [assignTop, h1, h2, Bool.false_eq_true, if_false, if_true]
          rw [ih m0 i j hndr k1 hk1]
          have e1 : topIdx used (g :: rest.take k1) = topIdx used (rest.take k1) := by
            simp [topIdx, List.filter_cons, h1m]
          have e2 : funcIdx used m0 (g :: rest.take k1) = funcIdx used m0 (rest.take k1) := by
            simp [funcIdx, List.filter_cons, h1m, h2]
          rw [e1, e2]
        · have h1m : g ∉ used := by simpa using h1
          have h2f : dmem g m0 = false := by simpa using h2
          simp only [assignTop, h1, h2, Bool.false_eq_true, if_false]
          rw [ih _ i (j + 1) hndr k1 hk1]
          have e1 : topIdx used (g :: rest.take k1) = topIdx used (rest.take k1) := by
            simp [topIdx, List.filter_cons, h1m]
          have e2 : funcIdx used m0 (g :: rest.take k1)
              = funcIdx used m0 (rest.take k1) + 1 := by
            simp [funcIdx, List.filter_cons, h1m, h2f]
          have e3 := funcIdx_dinsert used m0 g
            (if g = "main" then "main" else "func" ++ toString j) (rest.take k1) htk
          have e4 := dmem_dinsert_ne hfg
            (if g = "main" then "main" else "func" ++ toString j) m0
          have e5 := dlookup_dinsert_ne hfg
            (if g = "main" then "main" else "func" ++ toString j) m0
          have e6 : j + 1 + funcIdx used m0 (rest.take k1)
              = j + (funcIdx used m0 (rest.take k1) + 1) := by omega
          rw [e1, e2, e3, e4, e5, e6]

theorem c6_topfunc_rule_witness :
    dlookup "h" (assignTop ["g", "h"] ["g"] [] 0 0) = some "func0" := by
  have h := c6_topfunc_rule ["g", "h"] ["g"] [] 0 0 (by decide) 1 (by decide)
  exact h.trans (by decide)

/-! ## C8 — keywords and boolean literals in the output -/

/-- C8 counterexample input: the analyzer registers the keyword `if` as a
field of `A`, so the IR pass rewrites every `if` to `field0`, which the final
stage then mangles. -/
def c8input : String := "struct A{int if;};if"

/-- C8 counterexample: the claim says every reserved keyword appears
unchanged in the final output for every input and position; on this input the
stripped stream contains the keyword `if` twice, yet the final token stream
contains no `if` at all. -/
theorem c8_keyword_counterexample :
    minifyTokens c8input
      = some ["struct", " ", "B", "\x7b", "int", " ", "A", ";", "\x7d", ";", "A"] ∧
    (strip (group (fetch_tokens c8input))).count "if" = 2 ∧
    (["struct", " ", "B", "\x7b", "int", " ", "A", ";", "\x7d", ";", "A"] :
      List String).count "if" = 0 := by
  have hf : fetch_tokens c8input
      = ["struct", " ", "A", "\x7b", "int", " ", "if", ";", "\x7d", ";", "if"] := by decide
  have hs : strip (group (fetch_tokens c8input))
      = ["struct", "A", "\x7b", "int", "if", ";", "\x7d", ";", "if"] := by
    rw [hf, group_no_markers _ (by decide) (by decide) (by decide) (by decide) (by decide)]
    decide
  have hdef : minifyTokens c8input
      = ((get_stats (strip (group (fetch_tokens c8input)))).bind fun si =>
          (get_ir_renames si).bind fun r =>
            (to_ir (strip (group (fetch_tokens c8input))) r.1 r.2.1 r.2.2).bind
              fun irtoks => minifyEmit irtoks) := rfl
  refine ⟨?_, ?_, by decide⟩
  · rw [hdef, hs]
    decide
  · rw [hs]
    decide

/-- `nameLoop` never disturbs an existing table entry. -/
theorem nameLoop_keeps (toks : List String) (t c : String) (st : NamesState)
    (h : dlookup t st.names = some c) :
    dlookup t (nameLoop toks st).names = some c := by
  induction toks generalizing st with
  | nil => simpa [nameLoop] using h
  | cons u us ih =>
    simp only [nameLoop]
    exact ih _ (generate_name_keeps t u c st h)

/-- C8 amended: the final renaming stage maps, at every position and for every
IR stream, the literal spelling `true` to `1`, `false` to `0`, and every
reserved keyword to itself.  (The end-to-end claim fails only because the
earlier IR pass can capture a keyword as a field/argument/function name, as
the counterexample shows.) -/
theorem c8_final_stage (tokens : List String) :
    renameTok (buildNames tokens).names "true" = some "1" ∧
    renameTok (buildNames tokens).names "false" = some "0" ∧
    ∀ kw, is_keyword kw = true → renameTok (buildNames tokens).names kw = some kw := by
  refine ⟨?_, ?_, ?_⟩
  · have hr : renamable "true" = true := by decide
    simp only [renameTok, hr, if_true]
    exact nameLoop_keeps _ "true" "1" namesInit rfl
  · have hr : renamable "false" = true := by decide
    simp only [renameTok, hr, if_true]
    exact nameLoop_keeps _ "false" "0" namesInit rfl
  · intro kw hkw
    have hr : renamable kw = false := by simp [renamable, hkw]
    simp [renameTok, hr]

theorem c8_final_stage_witness :
    renameTok (buildNames ["if"]).names "true" = some "1" ∧
    renameTok (buildNames ["if"]).names "if" = some "if" :=
  ⟨(c8_final_stage ["if"]).1, (c8_final_stage ["if"]).2.2 "if" (by decide)⟩

/-! ## C10 — the pipeline is not total -/

/-- C10: the claim says the core pipeline runs to completion for every input.
It does not: on `int f(x` the analyzer reaches the argument-recording branch
at the last token (inside an unterminated parameter list, `parenth_depth > 0`)
and evaluates the unguarded `tokens[i + 1]`, raising `IndexError`; the
neighbouring function-detection line guards the same access, so the claim
matches the evident intent and the code has a slip.  In the model the
pipeline returns `none`. -/
theorem c10_pipeline_crash :
    minifyTokens "int f(x" = none ∧
    get_stats (strip (group (fetch_tokens "int f(x"))) = none := by
  have hf : fetch_tokens "int f(x" = ["int", " ", "f", "(", "x"] := by decide
  have hs : strip (group (fetch_tokens "int f(x")) = ["int", "f", "(", "x"] := by
    rw [hf, group_no_markers _ (by decide) (by decide) (by decide) (by decide) (by decide)]
    decide
  have hdef : minifyTokens "int f(x"
      = ((get_stats (strip (group (fetch_tokens "int f(x")))).bind fun si =>
          (get_ir_renames si).bind fun r =>
            (to_ir (strip (group (fetch_tokens "int f(x"))) r.1 r.2.1 r.2.2).bind
              fun irtoks => minifyEmit irtoks) := rfl
  constructor
  · rw [hdef, hs]
    decide
  · rw [hs]
    decide

/-! ## C7 — frequency order and code ranks -/

theorem dlookup_mem_pair {ν : Type} (k : String) (d : List (String × ν)) (v : ν)
    (h : dlookup k d = some v) : (k, v) ∈ d := by
  induction d with
  | nil => simp [dlookup] at h
  | cons p rest ih =>
    obtain ⟨p1, p2⟩ := p
    by_cases hp : p1 = k
    · simp only [dlookup, hp, if_pos] at h
      have hv := Option.some_inj.mp h
      subst hp
      subst hv
      simp
    · simp only [dlookup, hp, if_false] at h
      simp [ih h]

theorem dmem_eq_key_mem {ν : Type} (k : String) (d : List (String × ν)) :
    dmem k d = true ↔ k ∈ d.map Prod.fst := by
  induction d with
  | nil => simp [dmem, dlookup]
  | cons p rest ih =>
    by_cases hp : p.1 = k
    · simp [dmem, dlookup, hp]
    · have hkp : ¬ (k = p.1) := fun he => hp he.symm
      simp [dmem, dlookup, hp, hkp] at ih ⊢
      exact ih

theorem dinsert_keys {ν : Type} (k : String) (v : ν) (d : List (String × ν)) :
    (dinsert k v d).map Prod.fst
      = if dmem k d then d.map Prod.fst else d.map Prod.fst ++ [k] := by
  induction d with
  | nil => simp [dinsert, dmem, dlookup]
  | cons p rest ih =>
    by_cases hp : p.1 = k
    · simp [dinsert, dmem, dlookup, hp]
    · by_cases hm : dmem k rest
      · simp [dinsert, dmem, dlookup, hp, hm, ih]
        simp [dmem] at hm
        simp [hm]
      · simp [dinsert, dmem, dlookup, hp, ih]
        simp [dmem] at hm
        simp [hm]

/-- After the counting fold of `get_frequencies`, a renamable token maps to
its occurrence count (offset by whatever the accumulator already held). -/
theorem freqFold_lookup (t : String) (hr : renamable t = true) :
    ∀ (ts : List String) (d : List (String × Nat)),
      dlookup t (ts.foldl
        (fun d token =>
          if renamable token then
            match dlookup token d with
            | some c => dinsert token (c + 1) d
            | none => dinsert token 1 d
          else d) d) =
      (match dlookup t d with
       | some c => some (c + ts.count t)
       | none => if t ∈ ts then some (ts.count t) else none) := by
  intro ts
  induction ts with
  | nil =>
    intro d
    cases h : dlookup t d <;> simp [h]
  | cons u us ih =>
    intro d
    simp only [List.foldl_cons]
    by_cases hu : u = t
    · subst hu
      rw [show List.count u (u :: us) = List.count u us + 1 by
        simp [List.count_cons]]
      cases h : dlookup u d
      · simp only [hr, if_true, h]
        rw [ih, dlookup_dinsert_self]
        simp [Nat.add_comm]
      · simp only [hr, if_true, h]
        rw [ih, dlookup_dinsert_self]
        simp [Nat.add_comm, Nat.add_assoc, Nat.add_left_comm]
    · have hcnt : List.count t (u :: us) = List.count t us := by
        simp [List.count_cons, hu]
      have hmem : (t ∈ u :: us) ↔ (t ∈ us) := by
        simp only [List.mem_cons, or_iff_right_iff_imp]
        intro he
        exact absurd he.symm hu
      rw [hcnt]
      have htu : t ≠ u := fun he => hu he.symm
      by_cases hru : renamable u
      · cases h : dlookup u d
        · simp only [hru, if_true, h]
          rw [ih, dlookup_dinsert_ne htu]
          cases hd : dlookup t d <;> simp [hd, hmem]
        · simp only [hru, if_true, h]
          rw [ih, dlookup_dinsert_ne htu]
          cases hd : dlookup t d <;> simp [hd, hmem]
      · simp only [hru, Bool.false_eq_true, if_false]
        rw [ih]
        cases hd : dlookup t d <;> simp [hd, hmem]

theorem freqStep_keys_nodup (d : List (String × Nat)) (u : String)
    (h : (d.map Prod.fst).Nodup) :
    (((if renamable u then
        match dlookup u d with
        | some c => dinsert u (c + 1) d
        | none => dinsert u 1 d
      else d) : List (String × Nat)).map Prod.fst).Nodup := by
  by_cases hr : renamable u
  · cases hl : dlookup u d with
    | none =>
      simp only [hr, if_true, hl]
      rw [dinsert_keys]
      have hm : dmem u d = false := by simp [dmem, hl]
      rw [hm]
      simp only [Bool.false_eq_true, if_false]
      have hnk : u ∉ d.map Prod.fst := by
        intro hmem
        have hc := (dmem_eq_key_mem u d).mpr hmem
        rw [hm] at hc
        cases hc
      simp [List.nodup_append, h, hnk]
    | some c =>
      simp only [hr, if_true, hl]
      rw [dinsert_keys]
      have hm : dmem u d = true := by simp [dmem, hl]
      rw [hm]
      simpa using h
  · simpa [hr] using h

/-- Keys stay duplicate-free through the counting fold. -/
theorem freqFold_keys_nodup :
    ∀ (ts : List String) (d : List (String × Nat)), (d.map Prod.fst).Nodup →
      ((ts.foldl
        (fun d token =>
          if renamable token then
            match dlookup token d with
            | some c => dinsert token (c + 1) d
            | none => dinsert token 1 d
          else d) d).map Prod.fst).Nodup := by
  intro ts
  induction ts with
  | nil => intro d h; simpa using h
  | cons u us ih =>
    intro d h
    simp only [List.foldl_cons]
    exact ih _ (freqStep_keys_nodup d u h)

theorem insDesc_perm (x : String × Nat) (l : List (String × Nat)) :
    List.Perm (insDesc x l) (x :: l) := by
  induction l with
  | nil => exact List.Perm.refl _
  | cons y ys ih =>
    by_cases h : y.2 ≥ x.2
    · simp only [insDesc, h, if_pos]
      exact List.Perm.trans (List.Perm.cons y ih) (List.Perm.swap x y ys)
    · rw [insDesc, if_neg h]

theorem sortFold_perm (d : List (String × Nat)) :
    ∀ acc : List (String × Nat),
      List.Perm (d.foldl (fun a x => insDesc x a) acc) (acc ++ d) := by
  induction d with
  | nil => intro acc; simp
  | cons x xs ih =>
    intro acc
    simp only [List.foldl_cons]
    refine List.Perm.trans (ih _) ?_
    refine List.Perm.trans ((insDesc_perm x acc).append_right xs) ?_
    exact List.perm_middle.symm

theorem sort_dict_perm (d : List (String × Nat)) : List.Perm (sort_dict d) d := by
  simpa using sortFold_perm d []

theorem insDesc_sorted (x : String × Nat) (l : List (String × Nat))
    (h : l.Pairwise (fun p q => q.2 ≤ p.2)) :
    (insDesc x l).Pairwise (fun p q => q.2 ≤ p.2) := by
  induction l with
  | nil => simp [insDesc]
  | cons y ys ih =>
    obtain ⟨hy, hys⟩ := List.pairwise_cons.mp h
    by_cases hge : y.2 ≥ x.2
    · simp only [insDesc, hge, if_pos]
      rw [List.pairwise_cons]
      constructor
      · intro z hz
        have hmem := (insDesc_perm x ys).mem_iff.mp hz
        rcases List.mem_cons.mp hmem with rfl | hzys
        · exact hge
        · exact hy z hzys
      · exact ih hys
    · rw [insDesc, if_neg hge, List.pairwise_cons]
      push_neg at hge
      refine ⟨?_, h⟩
      intro z hz
      rcases List.mem_cons.mp hz with rfl | hzys
      · exact le_of_lt hge
      · exact le_trans (hy z hzys) (le_of_lt hge)

theorem sortFold_sorted (d : List (String × Nat)) :
    ∀ acc : List (String × Nat), acc.Pairwise (fun p q => q.2 ≤ p.2) →
      (d.foldl (fun a x => insDesc x a) acc).Pairwise (fun p q => q.2 ≤ p.2) := by
  induction d with
  | nil => intro acc h; simpa using h
  | cons x xs ih =>
    intro acc h
    simp only [List.foldl_cons]
    exact ih _ (insDesc_sorted x acc h)

theorem sort_dict_sorted (d : List (String × Nat)) :
    (sort_dict d).Pairwise (fun p q => q.2 ≤ p.2) :=
  sortFold_sorted d [] (by simp)

theorem two_mem_split {α : Type} (l : List α) (x y : α) (hx : x ∈ l) (hy : y ∈ l)
    (hne : x ≠ y) :
    (∃ u v w, l = u ++ x :: v ++ y :: w) ∨ (∃ u v w, l = u ++ y :: v ++ x :: w) := by
  obtain ⟨s, t, rfl⟩ := List.append_of_mem hx
  rcases List.mem_append.mp hy with hys | hyt
  · obtain ⟨u, v, rfl⟩ := List.append_of_mem hys
    right
    exact ⟨u, v, t, by simp⟩
  · rcases List.mem_cons.mp hyt with he | hyt2
    · exact absurd he.symm hne
    · obtain ⟨u, v, rfl⟩ := List.append_of_mem hyt2
      left
      exact ⟨s, u, v, by simp⟩

theorem pairwise_split {α : Type} {R : α → α → Prop} {l u v w : List α} {x y : α}
    (hp : l.Pairwise R) (he : l = u ++ x :: v ++ y :: w) : R x y := by
  subst he
  have h1 : List.Sublist [x] (x :: v) := List.cons_sublist_cons.mpr (List.nil_sublist v)
  have h2 : List.Sublist [x] (u ++ x :: v) :=
    h1.trans (List.sublist_append_right u (x :: v))
  have h3 : List.Sublist [y] (y :: w) := List.cons_sublist_cons.mpr (List.nil_sublist w)
  have hs : List.Sublist [x, y] (u ++ x :: v ++ y :: w) := List.Sublist.append h2 h3
  have hpair : List.Pairwise R [x, y] := List.Pairwise.sublist hs hp
  exact (List.pairwise_cons.mp hpair).1 y (by simp)

/-- Position of a letter in the uppercase-then-lowercase alphabet. -/
def alphaPos (c : Char) : Nat := List.indexOf c specAlphabet.data

/-- Lexicographic comparison of letter strings in the
uppercase-then-lowercase alphabet order. -/
def lexLetterLt : List Char → List Char → Bool
  | [], [] => false
  | [], _ :: _ => true
  | _ :: _, [] => false
  | c :: cs, d :: ds =>
    if alphaPos c < alphaPos d then true
    else if alphaPos c = alphaPos d then lexLetterLt cs ds
    else false

/-- The spec's code ranking: strictly shorter, or of equal length and
lexicographically earlier in the uppercase-then-lowercase letter order. -/
def earlierRanked (x y : String) : Prop :=
  x.length < y.length ∨ (x.length = y.length ∧ lexLetterLt x.data y.data = true)

theorem alphaPos_letter : ∀ m : Nat, m < 52 →
    alphaPos (specAlphabet.data.getD m 'A') = m := by decide

theorem length_mk (l : List Char) : (String.mk l).length = l.length := rfl

/-- A smaller fresh rank always yields an earlier-ranked code. -/
theorem freshCode_rank_lt (ka kb : Nat) (h : ka < kb) :
    earlierRanked (freshCode ka) (freshCode kb) := by
  have hdivle : ka / 52 ≤ kb / 52 := Nat.div_le_div_right (le_of_lt h)
  by_cases hdiv : ka / 52 = kb / 52
  · right
    constructor
    · show (freshCode ka).length = (freshCode kb).length
      unfold freshCode
      rw [length_mk, length_mk, List.length_replicate, List.length_replicate, hdiv]
    · have hm : ka % 52 < kb % 52 := by omega
      have hka : ka % 52 < 52 := Nat.mod_lt _ (by norm_num)
      have hkb : kb % 52 < 52 := Nat.mod_lt _ (by norm_num)
      have hpa := alphaPos_letter _ hka
      have hpb := alphaPos_letter _ hkb
      show lexLetterLt (freshCode ka).data (freshCode kb).data = true
      unfold freshCode
      rw [hdiv]
      show lexLetterLt (List.replicate (kb / 52 + 1) _) (List.replicate (kb / 52 + 1) _)
        = true
      rw [List.replicate_succ, List.replicate_succ, lexLetterLt, hpa, hpb, if_pos hm]
  · left
    have hlt : ka / 52 < kb / 52 := lt_of_le_of_ne hdivle hdiv
    show (freshCode ka).length < (freshCode kb).length
    unfold freshCode
    rw [length_mk, length_mk, List.length_replicate, List.length_replicate]
    omega

theorem renamable_not_keyword (t : String) (h : renamable t = true) :
    is_keyword t = false := by
  cases hik : is_keyword t
  · rfl
  · rw [renamable, hik] at h
    simp at h

/-- A token of the generation list that is fresh at counter state `k` ends up
with a fresh code of rank at least `k`. -/
theorem nameLoop_lb (b : String) :
    ∀ (l : List String) (st : NamesState) (k : Nat), encInv st k → b ∈ l →
      dlookup b st.names = none →
      ∃ kb, k ≤ kb ∧ dlookup b (nameLoop l st).names = some (freshCode kb) := by
  intro l
  induction l with
  | nil => intro st k _ hmem _; cases hmem
  | cons x rest ih =>
    intro st k hinv hmem hb
    by_cases hx : x = b
    · subst hx
      have hgen := generate_name_fresh x st k hb hinv
      simp only [nameLoop, hgen]
      exact ⟨k, le_refl k,
        nameLoop_keeps rest x (freshCode k) _ (dlookup_dinsert_self x (freshCode k) st.names)⟩
    · have hmem2 : b ∈ rest := by
        rcases List.mem_cons.mp hmem with he | h2
        · exact absurd he.symm hx
        · exact h2
      cases hlx : dlookup x st.names with
      | none =>
        have hgen := generate_name_fresh x st k hlx hinv
        simp only [nameLoop, hgen]
        have hb2 : dlookup b (dinsert x (freshCode k) st.names) = none := by
          rw [dlookup_dinsert_ne (fun he => hx he.symm)]
          exact hb
        obtain ⟨kb, hkb, hres⟩ := ih ⟨dinsert x (freshCode k) st.names,
          letterCode ((k + 1) % 52), (k + 1) / 52⟩ (k + 1) ⟨rfl, rfl⟩ hmem2 hb2
        exact ⟨kb, by omega, hres⟩
      | some c =>
        rw [nameLoop, generate_name_stale x st c hlx]
        exact ih st k hinv hmem2 hb

/-- Two distinct fresh tokens of the generation list receive fresh codes in
list order: the earlier one gets the strictly smaller rank. -/
theorem nameLoop_order (a b : String) :
    ∀ (u : List String) (st : NamesState) (k : Nat) (v w : List String),
      encInv st k → (u ++ a :: v ++ b :: w).Nodup →
      dlookup a st.names = none → dlookup b st.names = none →
      ∃ ka kb, ka < kb ∧
        dlookup a (nameLoop (u ++ a :: v ++ b :: w) st).names = some (freshCode ka) ∧
        dlookup b (nameLoop (u ++ a :: v ++ b :: w) st).names = some (freshCode kb) := by
  intro u
  induction u with
  | nil =>
    intro st k v w hinv hnd ha hb
    have hshape : (([] : List String) ++ a :: v) ++ b :: w = a :: (v ++ b :: w) := by simp
    rw [hshape]
    have hgen := generate_name_fresh a st k ha hinv
    simp only [nameLoop, hgen]
    have hab : a ≠ b := by
      intro he
      rw [hshape] at hnd
      have hna := (List.nodup_cons.mp hnd).1
      exact hna (by simp [he])
    have hb2 : dlookup b (dinsert a (freshCode k) st.names) = none := by
      rw [dlookup_dinsert_ne (fun he => hab he.symm)]
      exact hb
    obtain ⟨kb, hkb, hresb⟩ :=
      nameLoop_lb b (v ++ b :: w) ⟨dinsert a (freshCode k) st.names,
        letterCode ((k + 1) % 52), (k + 1) / 52⟩ (k + 1) ⟨rfl, rfl⟩ (by simp) hb2
    exact ⟨k, kb, by omega,
      nameLoop_keeps _ a (freshCode k) _ (dlookup_dinsert_self a (freshCode k) st.names),
      hresb⟩
  | cons x u1 ih =>
    intro st k v w hinv hnd ha hb
    have hshape : ((x :: u1) ++ a :: v) ++ b :: w = x :: ((u1 ++ a :: v) ++ b :: w) := by
      simp
    rw [hshape]
    rw [hshape] at hnd
    have hxmem : x ∉ (u1 ++ a :: v) ++ b :: w := (List.nodup_cons.mp hnd).1
    have hnd2 : ((u1 ++ a :: v) ++ b :: w).Nodup := (List.nodup_cons.mp hnd).2
    have hxa : x ≠ a := fun he => hxmem (by simp [he])
    have hxb : x ≠ b := fun he => hxmem (by simp [he])
    cases hlx : dlookup x st.names with
    | none =>
      have hgen := generate_name_fresh x st k hlx hinv
      simp only [nameLoop, hgen]
      have ha2 : dlookup a (dinsert x (freshCode k) st.names) = none := by
        rw [dlookup_dinsert_ne (fun he => hxa he.symm)]
        exact ha
      have hb2 : dlookup b (dinsert x (freshCode k) st.names) = none := by
        rw [dlookup_dinsert_ne (fun he => hxb he.symm)]
        exact hb
      exact ih ⟨dinsert x (freshCode k) st.names,
        letterCode ((k + 1) % 52), (k + 1) / 52⟩ (k + 1) v w ⟨rfl, rfl⟩ hnd2 ha2 hb2
    | some c =>
      rw [nameLoop, generate_name_stale x st c hlx]
      exact ih st k v w hinv hnd2 ha hb

/-- C7: for two renamable tokens of the IR stream (in the spec's sense, which
excludes the fixed literal spellings `true`/`false`) with different global
occurrence frequencies, the more frequent one receives an earlier-ranked
code: strictly shorter, or of equal length and lexicographically earlier in
the uppercase-then-lowercase letter order. -/
theorem c7_frequency_earlier_rank (tokens : List String) (a b : String)
    (hra : renamable a = true) (hrb : renamable b = true)
    (hat : a ≠ "true") (haf : a ≠ "false") (hbt : b ≠ "true") (hbf : b ≠ "false")
    (hbmem : b ∈ tokens) (hcnt : tokens.count b < tokens.count a) :
    ∃ ca cb, dlookup a (buildNames tokens).names = some ca ∧
      dlookup b (buildNames tokens).names = some cb ∧ earlierRanked ca cb := by
  have hamem : a ∈ tokens := by
    by_contra hna
    rw [List.count_eq_zero.mpr hna] at hcnt
    omega
  have hla : dlookup a (freqAux tokens) = some (tokens.count a) := by
    unfold freqAux
    rw [freqFold_lookup a hra tokens []]
    simp [dlookup, hamem]
  have hlb : dlookup b (freqAux tokens) = some (tokens.count b) := by
    unfold freqAux
    rw [freqFold_lookup b hrb tokens []]
    simp [dlookup, hbmem]
  have hea : (a, tokens.count a) ∈ freqAux tokens := dlookup_mem_pair _ _ _ hla
  have heb : (b, tokens.count b) ∈ freqAux tokens := dlookup_mem_pair _ _ _ hlb
  have hperm := sort_dict_perm (freqAux tokens)
  have hea2 : (a, tokens.count a) ∈ sort_dict (freqAux tokens) := hperm.mem_iff.mpr hea
  have heb2 : (b, tokens.count b) ∈ sort_dict (freqAux tokens) := hperm.mem_iff.mpr heb
  have hab : a ≠ b := by
    intro he
    rw [he] at hcnt
    omega
  have hneq : (a, tokens.count a) ≠ (b, tokens.count b) :=
    fun he => hab (congrArg Prod.fst he)
  have hnodup_freq : ((freqAux tokens).map Prod.fst).Nodup := by
    unfold freqAux
    exact freqFold_keys_nodup tokens [] (by simp)
  have hnodup : ((sort_dict (freqAux tokens)).map Prod.fst).Nodup :=
    ((hperm.map Prod.fst).nodup_iff).mpr hnodup_freq
  have ha0 : dlookup a namesInit.names = none :=
    namesInit_fresh a (renamable_not_keyword a hra) hat haf
  have hb0 : dlookup b namesInit.names = none :=
    namesInit_fresh b (renamable_not_keyword b hrb) hbt hbf
  rcases two_mem_split (sort_dict (freqAux tokens)) _ _ hea2 heb2 hneq with hsplit | hsplit
  · obtain ⟨u, v, w, hs⟩ := hsplit
    have hkeys : (sort_dict (freqAux tokens)).map Prod.fst
        = (u.map Prod.fst ++ a :: v.map Prod.fst) ++ b :: w.map Prod.fst := by
      rw [hs]
      simp
    obtain ⟨ka, kb, hlt, hta2, htb2⟩ :=
      nameLoop_order a b (u.map Prod.fst) namesInit 0 (v.map Prod.fst) (w.map Prod.fst)
        ⟨rfl, rfl⟩ (hkeys ▸ hnodup) ha0 hb0
    refine ⟨freshCode ka, freshCode kb, ?_, ?_, freshCode_rank_lt ka kb hlt⟩
    · show dlookup a (nameLoop ((get_frequencies tokens).map Prod.fst) namesInit).names
        = some (freshCode ka)
      unfold get_frequencies
      rw [hkeys]
      exact hta2
    · show dlookup b (nameLoop ((get_frequencies tokens).map Prod.fst) namesInit).names
        = some (freshCode kb)
      unfold get_frequencies
      rw [hkeys]
      exact htb2
  · obtain ⟨u, v, w, hs⟩ := hsplit
    have hR := pairwise_split (sort_dict_sorted (freqAux tokens)) hs
    simp only at hR
    omega

theorem c7_frequency_earlier_rank_witness :
    ∃ ca cb, dlookup "foo" (buildNames ["foo", "foo", "bar"]).names = some ca ∧
      dlookup "bar" (buildNames ["foo", "foo", "bar"]).names = some cb ∧
      earlierRanked ca cb :=
  c7_frequency_earlier_rank ["foo", "foo", "bar"] "foo" "bar" (by decide) (by decide)
    (by decide) (by decide) (by decide) (by decide) (by decide) (by decide)
